import Mathlib

/-!
# Verification of the enterprise-rag-playbook reference implementation

A shallow embedding of `09-reference-implementation/interfaces/` (loaders,
chunkers, retrievers, evaluators) with theorems checking the repository's
specification against the code.

Modelling conventions:
* Python strings are `List Char` (sequences of code points); slicing is
  `pySlice`, faithful to Python's clamping rules for integer slice bounds.
* Python dicts are association lists in insertion order; `dict.update` /
  `{**a, ...}` merges are `dictUpdate`, which overwrites an existing key in
  place and appends new keys, exactly like CPython.
* Python floats are modelled as exact rationals.  A cosine-similarity value
  `dot / (‖q‖ * ‖d‖)` is kept in exact form as the pair `Sim` of its
  numerator `dot` and squared denominator `‖q‖² * ‖d‖²`, avoiding
  irrational square roots; comparisons between such values are exact.
  IEEE `0.0 / 0.0` (the zero-norm case) is NaN; a `Sim` with zero `den2`
  marks this, and `InMemoryRetriever.search` returns `none` when NaN
  arises, since the behaviour of Python's sort on NaN keys is unspecified.
* Loops that the source does not guarantee to terminate (the fixed-size
  chunking loop) take a fuel parameter and return `none` on exhaustion, so
  divergence is the statement `∀ fuel, result = none`.
-/

/-- A Python scalar value as it occurs in metadata dicts and filter dicts.
`pnone` is Python's `None`, which is also what `dict.get` returns for a
missing key. -/
inductive PyVal where
| pnone : PyVal
| pint : ℤ → PyVal
| pstr : String → PyVal
| pbool : Bool → PyVal
deriving DecidableEq, Repr

/-- A Python dict with `String` keys, in insertion order. -/
abbrev PyDict (β : Type) := List (String × β)

/-- Store one key/value pair in a dict: overwrite the entry holding the key
if present (keeping its position), otherwise append — CPython's
`d[k] = v`. -/
def setKey {β : Type} : PyDict β → String × β → PyDict β
| [], kv => [kv]
| kv' :: d, kv => if kv'.1 = kv.1 then kv :: d else kv' :: setKey d kv

/-- `d.update(e)` / `{**d, **e}`: store every pair of `e` into `d`, in
order, later keys overwriting earlier ones. -/
def dictUpdate {β : Type} (d e : PyDict β) : PyDict β :=
  e.foldl setKey d

/-- `metadata.get(key)`: lookup defaulting to `None` for a missing key. -/
def dictGet (d : PyDict PyVal) (k : String) : PyVal :=
  (d.lookup k).getD PyVal.pnone

/-- Resolve one Python slice index against a sequence of length `n`:
negative indices count from the end, and both directions clamp into
`[0, n]`. -/
def pyIdx (n : ℕ) (i : ℤ) : ℕ :=
  if i < 0 then (n + i).toNat else min i.toNat n

/-- `t[a:b]` on a Python string, for integer bounds. -/
def pySlice (t : List Char) (a b : ℤ) : List Char :=
  (t.take (pyIdx t.length b)).drop (pyIdx t.length a)

/-- `loaders.Document` (the fields the chunkers consume; the loader-side
`loaded_at`/`source` metadata defaulting concerns only external loading). -/
structure Document where
  id : String
  text : List Char
  metadata : PyDict PyVal
  source : String
deriving DecidableEq, Repr

/-- `chunkers.Chunk`. -/
structure Chunk where
  id : String
  document_id : String
  text : List Char
  metadata : PyDict PyVal
  position : ℕ
deriving DecidableEq, Repr

namespace FixedSizeChunker

/-- One iteration of the `while start < len(text)` loop of
`FixedSizeChunker.chunk`, with fuel.  `start` is an `ℤ` because Python's
`start = end - self.overlap` can go negative when `overlap > chunk_size`.
`none` means the fuel ran out before the loop condition failed. -/
def chunkLoop (cs ov : ℕ) (doc : Document) : ℤ → ℕ → ℕ → Option (List Chunk)
| _, _, 0 => none
| start, position, fuel + 1 =>
  if start < (doc.text.length : ℤ) then
    let e : ℤ := start + cs
    let chunk_text := pySlice doc.text start e
    (chunkLoop cs ov doc (e - ov) (position + 1) fuel).map fun rest =>
      { id := doc.id ++ "_chunk_" ++ toString position
        document_id := doc.id
        text := chunk_text
        metadata := dictUpdate doc.metadata
          [("chunk_size", PyVal.pint chunk_text.length),
           ("start_char", PyVal.pint start),
           ("end_char", PyVal.pint e)]
        position := position } :: rest
  else some []

/-- `FixedSizeChunker(chunk_size, overlap).chunk(document)`.  The
constructor performs no validation, so the configuration goes straight
into the loop. -/
def chunk (cs ov : ℕ) (doc : Document) (fuel : ℕ) : Option (List Chunk) :=
  chunkLoop cs ov doc 0 0 fuel

end FixedSizeChunker

/-- The spec's reconstruction reading: concatenate the chunk texts after
removing the `ov`-character overlap prefix of every chunk except the
first. -/
def overlapStitch (ov : ℕ) : List Chunk → List Char
| [] => []
| c :: rest => c.text ++ (rest.map fun c' => c'.text.drop ov).flatten

example :
    (FixedSizeChunker.chunk 4 1 ⟨"d", "A. B. C.".toList, [], ""⟩ 20).map
      (fun l => l.map (fun c => String.mk c.text)) =
    some ["A. B", "B. C", "C."] := by decide

example :
    (FixedSizeChunker.chunk 2 1 ⟨"d", "ab".toList, [], ""⟩ 20).map
      (fun l => l.map (fun c => String.mk c.text)) =
    some ["ab", "b"] := by decide

example : FixedSizeChunker.chunk 2 2 ⟨"d", "ab".toList, [], ""⟩ 30 = none := by
  decide

/-- Scanning recursion behind `pySplit`, structural on a fuel that the
wrapper sets large enough to never run out (each step consumes at least
one character). -/
def pySplitF (sep : List Char) : ℕ → List Char → List (List Char)
| 0, t => [t]
| fuel + 1, t =>
  if sep = [] then [t]
  else
    match t with
    | [] => [[]]
    | c :: ts =>
      if sep = (c :: ts).take sep.length then
        [] :: pySplitF sep fuel ((c :: ts).drop sep.length)
      else
        match pySplitF sep fuel ts with
        | [] => [[c]]
        | s :: ss => (c :: s) :: ss

/-- Python `text.split(sep)` for a separator string, leftmost-first,
non-overlapping.  The source never calls it with an empty separator (which
raises in Python); that case is given the dummy value `[t]`. -/
def pySplit (sep t : List Char) : List (List Char) :=
  pySplitF sep (t.length + 1) t

example : (pySplit " ".toList "a bc  d".toList).map String.mk =
    ["a", "bc", "", "d"] := by decide
example : (pySplit ", ".toList ", x, ".toList).map String.mk =
    ["", "x", ""] := by decide

namespace RecursiveChunker

/-- `RecursiveChunker._hard_split`: `[text[i:i+cs] for i in
range(0, len(text), cs - ov)]`.  A zero step (`ov ≥ cs`) raises in Python;
the model only ever uses `ov < cs`. -/
def hardSplit (cs ov : ℕ) (t : List Char) : List (List Char) :=
  let step := cs - ov
  (List.range' 0 ((t.length + step - 1) / step) step).map
    fun i => (t.take (i + cs)).drop i

/-- The `for part in parts` loop of `RecursiveChunker._recursive_split`,
carrying the `chunks` and `current` accumulators.  `recur` is the
recursive call on the remaining (finer) separators. -/
def splitLoop (cs : ℕ) (sep : List Char) (recur : List Char → List (List Char)) :
    List (List Char) → List (List Char) → List Char →
    List (List Char) × List Char
| [], chunks, current => (chunks, current)
| part :: parts, chunks, current =>
  let candidate := current ++ (if current = [] then [] else sep) ++ part
  if candidate.length ≤ cs then
    splitLoop cs sep recur parts chunks candidate
  else
    let chunks' := if current = [] then chunks else chunks ++ [current]
    if cs < part.length then
      splitLoop cs sep recur parts (chunks' ++ recur part) []
    else
      splitLoop cs sep recur parts chunks' part

/-- `RecursiveChunker._recursive_split`. -/
def recursiveSplit (cs ov : ℕ) : List (List Char) → List Char → List (List Char)
| [], text => [text]
| sep :: rest, text =>
  if sep = [] then hardSplit cs ov text
  else
    let res := splitLoop cs sep (recursiveSplit cs ov rest) (pySplit sep text) [] []
    if res.2 = [] then res.1 else res.1 ++ [res.2]

/-- The `for i, chunk_text in enumerate(chunks)` comprehension of
`RecursiveChunker.chunk`. -/
def enumChunks (doc : Document) : ℕ → List (List Char) → List Chunk
| _, [] => []
| i, t :: ts =>
  { id := doc.id ++ "_chunk_" ++ toString i
    document_id := doc.id
    text := t
    metadata := doc.metadata
    position := i } :: enumChunks doc (i + 1) ts

/-- `RecursiveChunker(chunk_size, overlap, separators).chunk(document)`. -/
def chunk (cs ov : ℕ) (seps : List (List Char)) (doc : Document) : List Chunk :=
  enumChunks doc 0 (recursiveSplit cs ov seps doc.text)

end RecursiveChunker

example :
    (RecursiveChunker.chunk 5 1 ["\n\n".toList, "\n".toList, ". ".toList,
      " ".toList, []] ⟨"d", "ab cd ef\n\nxyz longwordhere".toList, [], ""⟩).map
      (fun c => (String.mk c.text, c.position)) =
    [("ab cd", 0), ("ef", 1), ("xyz", 2), ("longw", 3), ("wordh", 4),
     ("here", 5)] := by decide

/-- The value `np.dot(q, d) / (np.linalg.norm(q) * np.linalg.norm(d))` in
exact form: the real score is `num / √den2`, with `den2 = ‖q‖² * ‖d‖²`.
Keeping the squared denominator avoids irrational square roots.  `den2 = 0`
is exactly the zero-norm case, where the float computation is `0.0 / 0.0`,
i.e. NaN. -/
structure Sim where
  num : ℚ
  den2 : ℚ
deriving DecidableEq, Repr

/-- Signed square of the real score `num / √den2`: an order-preserving
key (`x ↦ x * |x|` is strictly monotone), used to compare two scores
exactly over ℚ.  On a NaN score (`den2 = 0`, only reachable with
`num = 0`) it is 0, but search never sorts NaN scores (it bails out). -/
def Sim.ssq (s : Sim) : ℚ :=
  if s.den2 = 0 then 0 else s.num * |s.num| / s.den2

/-- `np.dot` on equal-length vectors. -/
def dotProd (q d : List ℚ) : ℚ :=
  ((q.zip d).map fun p => p.1 * p.2).sum

/-- Squared Euclidean norm, `np.linalg.norm(v) ** 2`. -/
def normSq (v : List ℚ) : ℚ :=
  (v.map fun x => x * x).sum

/-- The cosine-similarity expression of `InMemoryRetriever.search`, as an
exact `Sim`. -/
def npCosine (q d : List ℚ) : Sim :=
  { num := dotProd q d, den2 := normSq q * normSq d }

/-- `retrievers.SearchResult` (its `score` kept in exact `Sim` form). -/
structure SearchResult where
  chunk : Chunk
  score : Sim
  rank : ℕ
deriving DecidableEq, Repr

/-- Python exceptions raised by the modelled code. -/
inductive PyErr where
| notImplementedError : PyErr
| zeroDivisionError : PyErr
deriving DecidableEq, Repr

/-- The state of an `InMemoryRetriever`: the parallel dicts
`self.chunks : dict[str, Chunk]` and `self.embeddings : dict[str, list[float]]`
share their keys (`index` and `delete` always touch both), so the state is
one insertion-ordered association of chunk to embedding. -/
abbrev Store := List (Chunk × List ℚ)

namespace InMemoryRetriever

/-- `InMemoryRetriever.index`: keyed assignment into both dicts —
overwrite in place if the id is present, else append. -/
def index (store : Store) (c : Chunk) (e : List ℚ) : Store :=
  if store.any fun ce => ce.1.id = c.id then
    store.map fun ce => if ce.1.id = c.id then (c, e) else ce
  else store ++ [(c, e)]

/-- `InMemoryRetriever.delete`: `dict.pop(·, None)` on both dicts — remove
the association if present, no error otherwise. -/
def delete (store : Store) (cid : String) : Store :=
  store.filter fun ce => ce.1.id ≠ cid

/-- The inherited `Retriever.update` as it executes on an
`InMemoryRetriever` (not overridden): `self.delete(chunk.id)` then
`self.index(chunk, embedding)` with the subclass's `delete`/`index`. -/
def update (store : Store) (c : Chunk) (e : List ℚ) : Store :=
  index (delete store c.id) c e

/-- `InMemoryRetriever._matches_filters`: every filter key must be present
in the chunk metadata with an equal value, where `metadata.get(key)` yields
`None` for a missing key. -/
def matchesFilters (c : Chunk) (filters : PyDict PyVal) : Bool :=
  filters.all fun kv => dictGet c.metadata kv.1 = kv.2

/-- The candidate-selection part of `search`: the loop skips a chunk iff
`filters` is non-empty (truthy) and the chunk does not match. -/
def searchScored (store : Store) (filters : PyDict PyVal) : Store :=
  store.filter fun ce => filters.isEmpty || matchesFilters ce.1 filters

/-- The descending-score order used by
`scores.sort(key=lambda x: x[1], reverse=True)`. -/
def simDesc (a b : Chunk × Sim) : Prop :=
  Sim.ssq b.2 ≤ Sim.ssq a.2

instance : DecidableRel simDesc := fun a b =>
  inferInstanceAs (Decidable (Sim.ssq b.2 ≤ Sim.ssq a.2))

instance : IsTotal (Chunk × Sim) simDesc :=
  ⟨fun a b => le_total (Sim.ssq b.2) (Sim.ssq a.2)⟩

instance : IsTrans (Chunk × Sim) simDesc :=
  ⟨fun _ _ _ h h' => le_trans h' h⟩

/-- The `enumerate(scores[:top_k])` comprehension building the result
list, assigning `rank = i + 1`. -/
def rankResults : ℕ → List (Chunk × Sim) → List SearchResult
| _, [] => []
| i, cs :: rest => ⟨cs.1, cs.2, i + 1⟩ :: rankResults (i + 1) rest

/-- `InMemoryRetriever.search`.  Python's stable `sort(reverse=True)` is a
stable descending sort, which is exactly `List.insertionSort` under
`simDesc`.  If any computed similarity is NaN (a zero-norm query or
candidate vector, `den2 = 0`), the float program sorts on NaN keys, whose
outcome the spec leaves undefined; the model returns `none` there. -/
def search (store : Store) (q : List ℚ) (topK : ℕ) (filters : PyDict PyVal) :
    Option (List SearchResult) :=
  let scores := (searchScored store filters).map fun ce => (ce.1, npCosine q ce.2)
  if scores.any fun cs => cs.2.den2 = 0 then none
  else some (rankResults 0 ((List.insertionSort simDesc scores).take topK))

end InMemoryRetriever

namespace RerankedRetriever

/-- `RerankedRetriever.index` delegates to the wrapped base store (modelled
as an `InMemoryRetriever`). -/
def index (store : Store) (c : Chunk) (e : List ℚ) : Store :=
  InMemoryRetriever.index store c e

/-- `RerankedRetriever` does not override `delete`, so a call resolves to
the inherited `Retriever.delete`, whose body is `raise NotImplementedError`;
the wrapped base store is never consulted. -/
def delete (_store : Store) (_cid : String) : Except PyErr Store :=
  Except.error PyErr.notImplementedError

/-- The inherited `Retriever.update`: `self.delete(chunk.id)` then
`self.index(chunk, embedding)`; the first step raises before `index` can
run. -/
def update (store : Store) (c : Chunk) (e : List ℚ) : Except PyErr Store := do
  let s ← delete store c.id
  pure (index s c e)

end RerankedRetriever

/-- `evaluators.GoldenExample`. -/
structure GoldenExample where
  query : String
  relevant_doc_ids : List String
  reference_answer : String
  metadata : PyDict PyVal
deriving DecidableEq, Repr

/-- `evaluators.EvaluationResult`. -/
structure EvaluationResult where
  query : String
  retrieval_metrics : PyDict ℚ
  generation_metrics : PyDict ℚ
  overall_score : ℚ
  details : PyDict PyVal
deriving DecidableEq, Repr

namespace RetrievalEvaluator

/-- `RetrievalEvaluator._recall_at_k`. -/
def recallAtK (retrieved_ids : List String) (relevant_ids : Finset String)
    (k : ℕ) : ℚ :=
  if relevant_ids = ∅ then 0
  else (((retrieved_ids.take k).toFinset ∩ relevant_ids).card : ℚ) /
    relevant_ids.card

/-- `RetrievalEvaluator._precision_at_k`. -/
def precisionAtK (retrieved_ids : List String) (relevant_ids : Finset String)
    (k : ℕ) : ℚ :=
  if k = 0 then 0
  else (((retrieved_ids.take k).toFinset ∩ relevant_ids).card : ℚ) / k

/-- The `for rank, doc_id in enumerate(retrieved_ids, 1)` loop of
`RetrievalEvaluator._mrr`. -/
def mrrGo (relevant_ids : Finset String) : List String → ℕ → ℚ
| [], _ => 0
| doc_id :: rest, rank =>
  if doc_id ∈ relevant_ids then 1 / (rank : ℚ) else mrrGo relevant_ids rest (rank + 1)

/-- `RetrievalEvaluator._mrr`. -/
def mrr (retrieved_ids : List String) (relevant_ids : Finset String) : ℚ :=
  mrrGo relevant_ids retrieved_ids 1

/-- `RetrievalEvaluator.evaluate`. -/
def evaluate (query : String) (retrieved : List SearchResult)
    (_generated_answer : String) (golden : Option GoldenExample) :
    EvaluationResult :=
  let metrics : PyDict ℚ :=
    match golden with
    | some g =>
      if g.relevant_doc_ids ≠ [] then
        let retrieved_ids := retrieved.map fun r => r.chunk.id
        let relevant_ids := g.relevant_doc_ids.toFinset
        [("recall@5", recallAtK retrieved_ids relevant_ids 5),
         ("recall@10", recallAtK retrieved_ids relevant_ids 10),
         ("precision@5", precisionAtK retrieved_ids relevant_ids 5),
         ("mrr", mrr retrieved_ids relevant_ids)]
      else []
    | none => []
  { query := query
    retrieval_metrics := metrics
    generation_metrics := []
    overall_score := (metrics.lookup "recall@5").getD 0
    details := [] }

end RetrievalEvaluator

/-- The spec's formulation of MRR: `1 / (1-indexed rank of the first
retrieved id that is in the relevant set), 0 if none match` — stated via
the index of the first hit, to be compared with the code's loop. -/
def mrrSpec (retrieved_ids : List String) (relevant_ids : Finset String) : ℚ :=
  match retrieved_ids.findIdx? fun d => decide (d ∈ relevant_ids) with
  | some i => 1 / ((i : ℚ) + 1)
  | none => 0

/-- The spec's "later evaluators' keys overwrite earlier ones" reading of
the metric merge: looking up a key in the merged mapping finds the value
from the last mapping that contains the key. -/
def lastLookup (key : String) (dicts : List (PyDict ℚ)) : Option ℚ :=
  dicts.reverse.findSome? fun d => d.lookup key

/-- An evaluator, reduced to its `evaluate` method (the only thing
`CompositeEvaluator` calls on it). -/
abbrev EvaluatorFn :=
  String → List SearchResult → String → Option GoldenExample → EvaluationResult

namespace CompositeEvaluator

/-- The constructor line `self.weights = weights or [1.0] * len(evaluators)`:
an absent or empty (falsy) weights list is replaced by all-ones. -/
def defaultWeights (weights : Option (List ℚ)) (n : ℕ) : List ℚ :=
  match weights with
  | none => List.replicate n 1
  | some l => if l = [] then List.replicate n 1 else l

/-- `CompositeEvaluator.evaluate`: run each evaluator over
`zip(self.evaluators, self.weights)`, merge metric dicts in order (later
keys overwrite), and divide the weighted score sum by `sum(self.weights)` —
which raises `ZeroDivisionError` when the weight sum is zero. -/
def evaluate (evaluators : List EvaluatorFn) (weights : Option (List ℚ))
    (query : String) (retrieved : List SearchResult) (generated_answer : String)
    (golden : Option GoldenExample) : Except PyErr EvaluationResult :=
  let ws := defaultWeights weights evaluators.length
  let results := (evaluators.zip ws).map
    fun p => (p.1 query retrieved generated_answer golden, p.2)
  let all_retrieval := results.foldl
    (fun acc rw => dictUpdate acc rw.1.retrieval_metrics) []
  let all_generation := results.foldl
    (fun acc rw => dictUpdate acc rw.1.generation_metrics) []
  let weighted := results.map fun rw => rw.1.overall_score * rw.2
  if ws.sum = 0 then Except.error PyErr.zeroDivisionError
  else Except.ok
    { query := query
      retrieval_metrics := all_retrieval
      generation_metrics := all_generation
      overall_score := weighted.sum / ws.sum
      details := [] }

end CompositeEvaluator

example :
    RetrievalEvaluator.recallAtK ["c3", "c1", "c5"] {"c1", "c2"} 5 = 1 / 2 ∧
    RetrievalEvaluator.precisionAtK ["c3", "c1", "c5"] {"c1", "c2"} 5 = 1 / 5 ∧
    RetrievalEvaluator.mrr ["c3", "c1", "c5"] {"c1", "c2"} = 1 / 2 := by
  have h1 : ((["c3", "c1", "c5"].take 5).toFinset ∩
      ({"c1", "c2"} : Finset String)).card = 1 := by decide
  have h2 : ({"c1", "c2"} : Finset String).card = 2 := by decide
  have h3 : ({"c1", "c2"} : Finset String) ≠ ∅ := by decide
  refine ⟨?_, ?_, ?_⟩
  · simp only [RetrievalEvaluator.recallAtK, if_neg h3, h1, h2]
    norm_num
  · simp only [RetrievalEvaluator.precisionAtK, h1]
    norm_num
  · simp only [RetrievalEvaluator.mrr, RetrievalEvaluator.mrrGo]
    norm_num [show ("c3" : String) ∉ ({"c1", "c2"} : Finset String) from by decide,
      show ("c1" : String) ∈ ({"c1", "c2"} : Finset String) from by decide]

/-! ## Claim theorems -/

/-- With `overlap ≥ chunk_size`, the loop start never increases, so it
stays at or below any nonpositive value for ever. -/
lemma fixedChunkLoop_none_of_start_nonpos {cs ov : ℕ} (hcs : cs ≤ ov)
    (doc : Document) (hdoc : doc.text ≠ []) :
    ∀ (fuel : ℕ) (start : ℤ) (pos : ℕ), start ≤ 0 →
      FixedSizeChunker.chunkLoop cs ov doc start pos fuel = none := by
  intro fuel
  induction fuel with
  | zero => intro start pos _; rfl
  | succ n ih =>
    intro start pos hstart
    have hlen : 0 < (doc.text.length : ℤ) := by
      have := List.length_pos.mpr hdoc
      exact_mod_cast this
    rw [FixedSizeChunker.chunkLoop]
    rw [if_pos (lt_of_le_of_lt hstart hlen)]
    show Option.map _ (FixedSizeChunker.chunkLoop cs ov doc (start + cs - ov)
      (pos + 1) n) = none
    rw [ih (start + cs - ov) (pos + 1) (by omega)]
    rfl

/-- C1: the spec requires `FixedSizeChunker` to reject `overlap ≥
chunk_size` with an eagerly raised configuration error.  The code performs
no validation at all: on any non-empty document the chunking loop never
terminates (for every fuel bound the loop is still running), so no error
is ever raised and no value is ever returned. -/
theorem C1_fixed_chunker_diverges_without_validation
    (cs ov : ℕ) (doc : Document) (fuel : ℕ)
    (hcs : cs ≤ ov) (hdoc : doc.text ≠ []) :
    FixedSizeChunker.chunk cs ov doc fuel = none :=
  fixedChunkLoop_none_of_start_nonpos hcs doc hdoc fuel 0 0 le_rfl

/-- Witness for C1 at the concrete misconfiguration `chunk_size = 2`,
`overlap = 2` on the document `"ab"`. -/
theorem C1_fixed_chunker_diverges_without_validation_witness :
    2 ≤ 2 ∧ ("ab".toList ≠ ([] : List Char)) ∧
    FixedSizeChunker.chunk 2 2 ⟨"d", "ab".toList, [], ""⟩ 100 = none :=
  ⟨le_rfl, by decide,
    C1_fixed_chunker_diverges_without_validation 2 2 ⟨"d", "ab".toList, [], ""⟩
      100 le_rfl (by decide)⟩

/-- A Python slice with natural-number bounds is take-then-drop. -/
lemma pySlice_natCast (t : List Char) (a b : ℕ) :
    pySlice t (a : ℤ) (b : ℤ) = (t.take b).drop a := by
  unfold pySlice pyIdx
  have ha : ¬ ((a : ℤ) < 0) := by omega
  have hb : ¬ ((b : ℤ) < 0) := by omega
  rw [if_neg ha, if_neg hb]
  simp only [Int.toNat_natCast]
  rcases le_or_lt b t.length with h | h
  · rw [min_eq_left h]
    rcases le_or_lt a t.length with h' | h'
    · rw [min_eq_left h']
    · rw [min_eq_right h'.le]
      rw [List.drop_eq_nil_of_le (by simp only [List.length_take]; omega),
        List.drop_eq_nil_of_le (by simp only [List.length_take]; omega)]
  · rw [min_eq_right h.le, List.take_length]
    rcases le_or_lt a t.length with h' | h'
    · rw [min_eq_left h', List.take_of_length_le h.le]
    · rw [min_eq_right h'.le, List.take_of_length_le h.le,
        List.drop_length, List.drop_eq_nil_of_le h'.le]

/-- Telescoping: dropping `i` of the whole list splits at any `j ≥ i`. -/
lemma drop_take_append_drop (t : List Char) {i j : ℕ} (hij : i ≤ j) :
    (t.take j).drop i ++ t.drop j = t.drop i := by
  rcases le_or_lt i t.length with hi | hi
  · conv_rhs => rw [← List.take_append_drop j t]
    rw [List.drop_append_eq_append_drop]
    have h : i ≤ (t.take j).length := by
      simp only [List.length_take]; omega
    rw [Nat.sub_eq_zero_of_le h, List.drop_zero]
  · rw [List.drop_eq_nil_of_le hi.le, List.drop_eq_nil_of_le (hi.trans_le hij).le,
      List.drop_eq_nil_of_le (by simp only [List.length_take]; omega)]
    simp

/-- Unfolding one productive iteration of the fixed-size chunking loop. -/
lemma chunkLoop_cons {cs ov : ℕ} (doc : Document) (start : ℤ) (pos fl : ℕ)
    (h : start < (doc.text.length : ℤ)) (L' : List Chunk)
    (hrec : FixedSizeChunker.chunkLoop cs ov doc (start + cs - ov) (pos + 1) fl =
      some L') :
    ∃ C : Chunk,
      FixedSizeChunker.chunkLoop cs ov doc start pos (fl + 1) = some (C :: L') ∧
      C.text = pySlice doc.text start (start + cs) ∧ C.position = pos := by
  refine ⟨{ id := doc.id ++ "_chunk_" ++ toString pos
            document_id := doc.id
            text := pySlice doc.text start (start + cs)
            metadata := dictUpdate doc.metadata
              [("chunk_size",
                PyVal.pint (pySlice doc.text start (start + cs)).length),
               ("start_char", PyVal.pint start),
               ("end_char", PyVal.pint (start + cs))]
            position := pos }, ?_, rfl, rfl⟩
  rw [FixedSizeChunker.chunkLoop, if_pos h]
  show Option.map _ (FixedSizeChunker.chunkLoop cs ov doc (start + ↑cs - ↑ov)
    (pos + 1) fl) = _
  rw [hrec]
  rfl

/-- The ceiling-count recurrence: one loop iteration accounts for one
chunk. -/
lemma ceil_count_step {d s : ℕ} (hs : 0 < s) (hd : 0 < d) :
    (d + s - 1) / s = (d - s + s - 1) / s + 1 := by
  rcases le_or_lt d s with h | h
  · have h0 : d - s = 0 := by omega
    rw [h0]
    have h1 : (d + s - 1) / s = 1 := by
      apply Nat.div_eq_of_lt_le <;> omega
    have h2 : (0 + s - 1) / s = 0 := Nat.div_eq_of_lt (by omega)
    omega
  · have h1 : d + s - 1 = (d - s + s - 1) + s := by omega
    rw [h1, Nat.add_div_right _ hs]

/-- Main loop invariant for a valid configuration `ov < cs`: from any
start position, with enough fuel, the loop returns a list with the
ceiling chunk count for the remaining text, whose texts with their
`ov`-prefixes dropped concatenate to the remaining text past
`start + ov`. -/
lemma chunkLoop_valid_spec {cs ov : ℕ} (hov : ov < cs) (doc : Document) :
    ∀ (m start pos fuel : ℕ), doc.text.length ≤ start + m → m < fuel →
    ∃ L : List Chunk,
      FixedSizeChunker.chunkLoop cs ov doc (start : ℤ) pos fuel = some L ∧
      L.length = (doc.text.length - start + (cs - ov) - 1) / (cs - ov) ∧
      (L.map fun c => c.text.drop ov).flatten = doc.text.drop (start + ov) ∧
      (∀ c ∈ L, c.text ≠ []) := by
  intro m
  induction m using Nat.strong_induction_on with
  | _ m ih =>
    intro start pos fuel hbound hfuel
    obtain ⟨fl, rfl⟩ : ∃ fl, fuel = fl + 1 := ⟨fuel - 1, by omega⟩
    rcases le_or_lt doc.text.length start with hstart | hstart
    · refine ⟨[], ?_, ?_, ?_, by simp⟩
      · rw [FixedSizeChunker.chunkLoop, if_neg (by omega)]
      · have h0 : doc.text.length - start = 0 := by omega
        rw [h0, Nat.div_eq_of_lt (by omega)]
        simp
      · rw [List.map_nil, List.flatten_nil, Eq.comm, List.drop_eq_nil_iff]
        omega
    · have hs : 0 < cs - ov := by omega
      have hm : 1 ≤ m := by omega
      obtain ⟨L', hL', hlen', hflat', hne'⟩ :=
        ih (m - 1) (by omega) (start + (cs - ov)) (pos + 1) fl
          (by omega) (by omega)
      have harith : ((start : ℤ) : ℤ) + cs - ov = ((start + (cs - ov) : ℕ) : ℤ) := by
        push_cast; omega
      obtain ⟨C, hloop, hCtext, _⟩ :=
        chunkLoop_cons doc (start : ℤ) pos fl (by omega) L' (by rw [harith]; exact hL')
      have hslice : C.text = (doc.text.take (start + cs)).drop start := by
        rw [hCtext]
        have h : (start : ℤ) + cs = ((start + cs : ℕ) : ℤ) := by push_cast; ring
        rw [h, pySlice_natCast]
      refine ⟨C :: L', hloop, ?_, ?_, ?_⟩
      · simp only [List.length_cons, hlen']
        have h : doc.text.length - start - (cs - ov) =
            doc.text.length - (start + (cs - ov)) := by omega
        rw [← h, ← ceil_count_step hs (by omega)]
      · simp only [List.map_cons, List.flatten_cons, hflat', hslice]
        rw [List.drop_drop]
        have h2 : start + (cs - ov) + ov = start + cs := by omega
        rw [h2]
        exact drop_take_append_drop doc.text (by omega)
      · intro c hc
        rcases List.mem_cons.mp hc with hc | hc
        · subst hc
          rw [hslice]
          intro hnil
          rw [List.drop_eq_nil_iff, List.length_take] at hnil
          omega
        · exact hne' c hc

/-- C4 (corrected): for a valid fixed-window configuration
`0 ≤ overlap < chunk_size` and a non-empty document, overlap-stitching the
produced chunk texts reconstructs the document text exactly — that part of
the claim holds — but the number of chunks is
`ceil(len(text) / (chunk_size - overlap))`, not the claim's
`ceil((len(text) - overlap) / (chunk_size - overlap))`: the loop keeps
running while `start < len(text)`, so it also emits a final chunk lying
entirely inside the previous window whenever the two formulas differ. -/
theorem C4_fixed_chunker_reconstruction_and_count
    (cs ov : ℕ) (doc : Document) (fuel : ℕ)
    (hov : ov < cs) (hne : doc.text ≠ []) (hfuel : doc.text.length < fuel) :
    ∃ L : List Chunk,
      FixedSizeChunker.chunk cs ov doc fuel = some L ∧
      overlapStitch ov L = doc.text ∧
      L.length = (doc.text.length + (cs - ov) - 1) / (cs - ov) := by
  have hn : 0 < doc.text.length := List.length_pos.mpr hne
  have hs : 0 < cs - ov := by omega
  obtain ⟨fl, rfl⟩ : ∃ fl, fuel = fl + 1 := ⟨fuel - 1, by omega⟩
  obtain ⟨L', hL', hlen', hflat', _⟩ :=
    chunkLoop_valid_spec hov doc (doc.text.length - 1) (cs - ov) 1 fl
      (by omega) (by omega)
  have harith : (0 : ℤ) + cs - ov = (((cs - ov : ℕ)) : ℤ) := by omega
  obtain ⟨C, hloop, hCtext, _⟩ :=
    chunkLoop_cons doc 0 0 fl (by omega) L' (by rw [harith]; exact hL')
  refine ⟨C :: L', hloop, ?_, ?_⟩
  · show C.text ++ (L'.map fun c' => c'.text.drop ov).flatten = doc.text
    have h0 : C.text = doc.text.take cs := by
      rw [hCtext]
      have h : ((0 : ℤ)) + cs = ((cs : ℕ) : ℤ) := by omega
      rw [h]
      have := pySlice_natCast doc.text 0 cs
      simpa using this
    rw [h0, hflat']
    have h1 : cs - ov + ov = cs := by omega
    rw [h1]
    exact List.take_append_drop cs doc.text
  · simp only [List.length_cons, hlen']
    have hstep := ceil_count_step hs hn (d := doc.text.length) (s := cs - ov)
    omega

/-- Witness for C4 at `chunk_size = 4`, `overlap = 1`, document
`"A. B. C."` (the spec's own scenario: 3 chunks, stitching back to the
text). -/
theorem C4_fixed_chunker_reconstruction_and_count_witness :
    1 < 4 ∧ ("A. B. C.".toList ≠ ([] : List Char)) ∧
    ("A. B. C.".toList.length < 20) ∧
    ∃ L : List Chunk,
      FixedSizeChunker.chunk 4 1 ⟨"d", "A. B. C.".toList, [], ""⟩ 20 = some L ∧
      overlapStitch 1 L = "A. B. C.".toList ∧
      L.length = ("A. B. C.".toList.length + (4 - 1) - 1) / (4 - 1) :=
  ⟨by omega, by decide, by decide,
    C4_fixed_chunker_reconstruction_and_count 4 1 ⟨"d", "A. B. C.".toList, [], ""⟩
      20 (by omega) (by decide) (by decide)⟩

/-- Counterexample for C4 as stated: on the document `"ab"` with
`chunk_size = 2`, `overlap = 1`, the code produces 2 chunks (`"ab"`,
`"b"`), while the claim's formula `ceil((len - overlap) / (chunk_size -
overlap))` predicts `ceil((2-1)/1) = 1`. -/
theorem C4_fixed_chunker_count_counterexample :
    (FixedSizeChunker.chunk 2 1 ⟨"d", "ab".toList, [], ""⟩ 10).map List.length =
      some 2 ∧
    ("ab".toList.length - 1 + (2 - 1) - 1) / (2 - 1) = 1 ∧ (2 : ℕ) ≠ 1 := by
  refine ⟨by decide, by decide, by decide⟩

/-- Every slice emitted by `_hard_split` is non-empty and at most
`chunk_size` long (for a valid configuration `ov < cs`). -/
lemma hardSplit_mem {cs ov : ℕ} (hov : ov < cs) (t : List Char) :
    ∀ x ∈ RecursiveChunker.hardSplit cs ov t, x ≠ [] ∧ x.length ≤ cs := by
  intro x hx
  unfold RecursiveChunker.hardSplit at hx
  set s := cs - ov with hs
  have hs1 : 0 < s := by omega
  obtain ⟨i, hi, rfl⟩ := List.mem_map.mp hx
  obtain ⟨j, hj, rfl⟩ := List.mem_range'.mp hi
  set k := (t.length + s - 1) / s with hk
  have hks : k * s ≤ t.length + s - 1 := Nat.div_mul_le_self _ s
  have hjk : (j + 1) * s ≤ k * s := Nat.mul_le_mul_right s hj
  have hin : 0 + s * j < t.length := by
    have h1 : j * s + s ≤ t.length + s - 1 := by
      calc j * s + s = (j + 1) * s := by ring
      _ ≤ k * s := hjk
      _ ≤ t.length + s - 1 := hks
    have h2 : 0 < t.length := by
      rcases Nat.eq_zero_or_pos t.length with h0 | h0
      · exfalso
        have : k = 0 := by
          rw [hk, h0]
          exact Nat.div_eq_of_lt (by omega)
        omega
      · exact h0
    have hcomm : s * j = j * s := Nat.mul_comm s j
    omega
  constructor
  · intro hnil
    rw [List.drop_eq_nil_iff, List.length_take] at hnil
    omega
  · simp only [List.length_drop, List.length_take]
    omega

/-- The accumulator invariant of the `for part in parts` loop: if every
already-flushed chunk and every chunk the recursive call can produce is
non-empty and within `chunk_size`, and the running buffer is within
`chunk_size`, the same holds on exit. -/
lemma splitLoop_invariant (cs : ℕ) (sep : List Char)
    (recur : List Char → List (List Char))
    (hrecur : ∀ part, ∀ x ∈ recur part, x ≠ [] ∧ x.length ≤ cs) :
    ∀ (parts chunks : List (List Char)) (current : List Char),
      (∀ x ∈ chunks, x ≠ [] ∧ x.length ≤ cs) → current.length ≤ cs →
      (∀ x ∈ (RecursiveChunker.splitLoop cs sep recur parts chunks current).1,
        x ≠ [] ∧ x.length ≤ cs) ∧
      (RecursiveChunker.splitLoop cs sep recur parts chunks current).2.length ≤ cs := by
  intro parts
  induction parts with
  | nil => intro chunks current hc hcur; exact ⟨hc, hcur⟩
  | cons part parts ih =>
    intro chunks current hc hcur
    rw [RecursiveChunker.splitLoop]
    rcases le_or_lt (current ++ (if current = [] then [] else sep) ++ part).length cs
      with hle | hgt
    · rw [if_pos hle]
      exact ih chunks _ hc hle
    · rw [if_neg (by omega)]
      have hc' : ∀ x ∈ (if current = [] then chunks else chunks ++ [current]),
          x ≠ [] ∧ x.length ≤ cs := by
        rcases eq_or_ne current [] with h | h
        · rw [if_pos h]; exact hc
        · rw [if_neg h]
          intro x hx
          rcases List.mem_append.mp hx with hx | hx
          · exact hc x hx
          · rw [List.mem_singleton.mp hx]
            exact ⟨h, hcur⟩
      rcases lt_or_le cs part.length with hbig | hsmall
      · rw [if_pos hbig]
        refine ih _ [] ?_ (by simp)
        intro x hx
        rcases List.mem_append.mp hx with hx | hx
        · exact hc' x hx
        · exact hrecur part x hx
      · rw [if_neg (by omega)]
        exact ih _ part hc' hsmall

/-- Every chunk text produced by `_recursive_split` is non-empty and at
most `chunk_size` long, provided the separator list ends with the empty
string and `ov < cs`. -/
lemma recursiveSplit_mem {cs ov : ℕ} (hov : ov < cs) :
    ∀ (seps : List (List Char)) (text : List Char),
      seps.getLast? = some [] →
      ∀ x ∈ RecursiveChunker.recursiveSplit cs ov seps text,
        x ≠ [] ∧ x.length ≤ cs := by
  intro seps
  induction seps with
  | nil => intro text h; simp at h
  | cons sep rest ih =>
    intro text hlast x hx
    rw [RecursiveChunker.recursiveSplit] at hx
    rcases eq_or_ne sep [] with hsep | hsep
    · rw [if_pos hsep] at hx
      exact hardSplit_mem hov text x hx
    · rw [if_neg hsep] at hx
      have hrest : rest.getLast? = some [] := by
        match rest, hlast with
        | [], hlast => simp at hlast; exact absurd hlast hsep
        | r :: rs, hlast => rwa [List.getLast?_cons_cons] at hlast
      have hinv := splitLoop_invariant cs sep
        (RecursiveChunker.recursiveSplit cs ov rest)
        (fun part => ih part hrest) (pySplit sep text) [] []
        (by intro y hy; simp at hy) (by simp)
      rcases eq_or_ne (RecursiveChunker.splitLoop cs sep
          (RecursiveChunker.recursiveSplit cs ov rest)
          (pySplit sep text) [] []).2 [] with hemp | hemp
      · rw [if_pos hemp] at hx
        exact hinv.1 x hx
      · rw [if_neg hemp] at hx
        rcases List.mem_append.mp hx with hx | hx
        · exact hinv.1 x hx
        · rw [List.mem_singleton.mp hx]
          exact ⟨hemp, hinv.2⟩

/-- `enumChunks` positions are consecutive from the start index, its
length matches, and its texts are the given texts. -/
lemma enumChunks_spec (doc : Document) :
    ∀ (ts : List (List Char)) (i : ℕ),
      ((RecursiveChunker.enumChunks doc i ts).map fun c => c.position) =
        List.range' i ts.length ∧
      (∀ c ∈ RecursiveChunker.enumChunks doc i ts, c.text ∈ ts) := by
  intro ts
  induction ts with
  | nil => intro i; exact ⟨rfl, by simp [RecursiveChunker.enumChunks]⟩
  | cons t ts ih =>
    intro i
    rw [RecursiveChunker.enumChunks]
    refine ⟨?_, ?_⟩
    · simp only [List.map_cons, List.length_cons, List.range'_succ, (ih (i + 1)).1]
    · intro c hc
      rcases List.mem_cons.mp hc with hc | hc
      · subst hc; exact List.mem_cons_self _ _
      · exact List.mem_cons_of_mem _ ((ih (i + 1)).2 c hc)

/-- C5: for every document and recursive-split configuration whose
separator list ends with the empty string and with `overlap < chunk_size`
(hence `chunk_size > 0`), `RecursiveChunker.chunk` yields chunks whose
positions are exactly `0, 1, 2, ...` in order, none of whose texts is
empty, and each of whose texts has length at most `chunk_size`. -/
theorem C5_recursive_chunker_invariants
    (cs ov : ℕ) (seps : List (List Char)) (doc : Document)
    (hov : ov < cs) (hsep : seps.getLast? = some []) :
    ((RecursiveChunker.chunk cs ov seps doc).map fun c => c.position) =
      List.range (RecursiveChunker.chunk cs ov seps doc).length ∧
    ∀ c ∈ RecursiveChunker.chunk cs ov seps doc,
      c.text ≠ [] ∧ c.text.length ≤ cs := by
  unfold RecursiveChunker.chunk
  obtain ⟨hpos, htext⟩ :=
    enumChunks_spec doc (RecursiveChunker.recursiveSplit cs ov seps doc.text) 0
  constructor
  · rw [hpos, List.range_eq_range']
    congr 1
    have : ∀ (ts : List (List Char)) (i : ℕ),
        (RecursiveChunker.enumChunks doc i ts).length = ts.length := by
      intro ts
      induction ts with
      | nil => intro i; rfl
      | cons t ts ih =>
        intro i
        rw [RecursiveChunker.enumChunks]
        simp only [List.length_cons, ih (i + 1)]
    rw [this]
  · intro c hc
    exact recursiveSplit_mem hov seps doc.text hsep c.text (htext c hc)

/-- Witness for C5 on the concrete configuration `chunk_size = 5`,
`overlap = 1`, separators `["\n\n", "\n", ". ", " ", ""]`, and a document
that exercises the greedy, recursive and hard-split paths. -/
theorem C5_recursive_chunker_invariants_witness :
    1 < 5 ∧
    (["\n\n".toList, "\n".toList, ". ".toList, " ".toList,
      ([] : List Char)].getLast? = some []) ∧
    (((RecursiveChunker.chunk 5 1 ["\n\n".toList, "\n".toList, ". ".toList,
        " ".toList, []] ⟨"d", "ab cd ef\n\nxyz longwordhere".toList, [], ""⟩).map
        fun c => c.position) =
      List.range (RecursiveChunker.chunk 5 1 ["\n\n".toList, "\n".toList,
        ". ".toList, " ".toList, []]
        ⟨"d", "ab cd ef\n\nxyz longwordhere".toList, [], ""⟩).length ∧
    ∀ c ∈ RecursiveChunker.chunk 5 1 ["\n\n".toList, "\n".toList, ". ".toList,
        " ".toList, []] ⟨"d", "ab cd ef\n\nxyz longwordhere".toList, [], ""⟩,
      c.text ≠ [] ∧ c.text.length ≤ 5) :=
  ⟨by omega, by decide,
    C5_recursive_chunker_invariants 5 1
      ["\n\n".toList, "\n".toList, ". ".toList, " ".toList, []]
      ⟨"d", "ab cd ef\n\nxyz longwordhere".toList, [], ""⟩
      (by omega) (by decide)⟩

/-- C3 (corrected): `RerankedRetriever` only overrides `index` and
`search`.  `delete` therefore resolves to the inherited `Retriever.delete`,
whose body raises `NotImplementedError` without touching the wrapped base
store, and `update` (also inherited) calls `delete` first and so raises
too, before `index` can run.  Only `index` delegates to the base store. -/
theorem C3_reranked_delete_update_raise
    (store : Store) (cid : String) (c : Chunk) (e : List ℚ) :
    RerankedRetriever.delete store cid =
      Except.error PyErr.notImplementedError ∧
    RerankedRetriever.update store c e =
      Except.error PyErr.notImplementedError ∧
    RerankedRetriever.index store c e = InMemoryRetriever.index store c e :=
  ⟨rfl, rfl, rfl⟩

/-- Counterexample for C3 as stated: on a base store holding one chunk,
deleting (resp. updating) through the wrapper raises
`NotImplementedError`, while calling delete (resp. update) on the base
store directly succeeds and changes the store — the wrapper call does not
have the effect of the base-store call. -/
theorem C3_reranked_delegation_counterexample :
    RerankedRetriever.delete [(⟨"c1", "d", "t".toList, [], 0⟩, [1])] "c1" =
      Except.error PyErr.notImplementedError ∧
    InMemoryRetriever.delete [(⟨"c1", "d", "t".toList, [], 0⟩, [1])] "c1" =
      [] ∧
    RerankedRetriever.delete [(⟨"c1", "d", "t".toList, [], 0⟩, [1])] "c1" ≠
      Except.ok (InMemoryRetriever.delete
        [(⟨"c1", "d", "t".toList, [], 0⟩, [1])] "c1") ∧
    RerankedRetriever.update [(⟨"c1", "d", "t".toList, [], 0⟩, [1])]
        ⟨"c1", "d", "t".toList, [], 0⟩ [2] =
      Except.error PyErr.notImplementedError ∧
    RerankedRetriever.update [(⟨"c1", "d", "t".toList, [], 0⟩, [1])]
        ⟨"c1", "d", "t".toList, [], 0⟩ [2] ≠
      Except.ok (InMemoryRetriever.update
        [(⟨"c1", "d", "t".toList, [], 0⟩, [1])] ⟨"c1", "d", "t".toList, [], 0⟩
        [2]) := by
  exact ⟨rfl, by decide, fun h => Except.noConfusion h, rfl,
    fun h => Except.noConfusion h⟩

/-- If the stored vector has zero squared norm, all its entries are zero,
so the dot product with any query vanishes. -/
lemma dotProd_eq_zero_of_normSq_zero :
    ∀ (d q : List ℚ), normSq d = 0 → dotProd q d = 0 := by
  intro d
  induction d with
  | nil => intro q _; simp [dotProd]
  | cons x d ih =>
    intro q hx
    have hnn : 0 ≤ normSq d := by
      apply List.sum_nonneg
      intro y hy
      obtain ⟨z, _, rfl⟩ := List.mem_map.mp hy
      exact mul_self_nonneg z
    have hsum : x * x + normSq d = 0 := by
      simpa [normSq] using hx
    have hx0 : x = 0 := by
      have := mul_self_nonneg x
      have hxx : x * x = 0 := by linarith
      exact mul_self_eq_zero.mp hxx
    match q with
    | [] => simp [dotProd]
    | a :: q =>
      have hd : normSq d = 0 := by linarith [mul_self_nonneg x]
      have := ih q hd
      simp only [dotProd, List.zip_cons_cons, List.map_cons, List.sum_cons] at *
      rw [hx0]
      simpa using this

/-- C2: the spec demands that a zero-norm vector yield cosine score 0.
The code divides `np.dot(q, d)` by `norm(q) * norm(d)` with no guard, so
with a zero-norm vector it computes the float expression `0.0 / 0.0`,
which is NaN (with a numpy `RuntimeWarning`), not the score 0: in the
model, both the numerator and the squared denominator of the similarity
are 0, and `search` over a store holding a zero vector reaches no result
list at all. -/
theorem C2_zero_norm_is_nan_not_zero :
    (∀ q d : List ℚ, normSq d = 0 →
      (npCosine q d).num = 0 ∧ (npCosine q d).den2 = 0) ∧
    InMemoryRetriever.search [(⟨"c1", "d", "t".toList, [], 0⟩, [0, 0])]
      [1, 0] 5 [] = none := by
  constructor
  · intro q d hd
    exact ⟨dotProd_eq_zero_of_normSq_zero d q hd, by simp [npCosine, hd]⟩
  · simp only [InMemoryRetriever.search, InMemoryRetriever.searchScored]
    norm_num [npCosine, dotProd, normSq]

/-- Witness for C2 at the query `[1, 0]` against the stored zero vector
`[0, 0]`. -/
theorem C2_zero_norm_is_nan_not_zero_witness :
    normSq [(0 : ℚ), 0] = 0 ∧
    (npCosine [(1 : ℚ), 0] [0, 0]).num = 0 ∧
    (npCosine [(1 : ℚ), 0] [0, 0]).den2 = 0 := by
  have h : normSq [(0 : ℚ), 0] = 0 := by norm_num [normSq]
  exact ⟨h, (C2_zero_norm_is_nan_not_zero.1 [1, 0] [0, 0] h).1,
    (C2_zero_norm_is_nan_not_zero.1 [1, 0] [0, 0] h).2⟩

/-- C6 (corrected): with non-empty filters, the chunks scored and eligible
for `search`'s result list are exactly those passing
`_matches_filters`, and a chunk matches iff `metadata.get(key)` equals the
filter value for every filter entry, where `get` of a missing key yields
`None`.  For filters whose values are all non-`None` this is the claim's
"metadata contains every filter key with an equal value"; but a filter
entry with value `None` matches a chunk lacking that key, so the claim's
"a chunk whose metadata lacks any filter key does not match" fails in
general. -/
theorem C6_filter_match_semantics
    (store : Store) (fs : PyDict PyVal) (c : Chunk) (hfs : fs ≠ []) :
    InMemoryRetriever.searchScored store fs =
      store.filter (fun ce => InMemoryRetriever.matchesFilters ce.1 fs) ∧
    (InMemoryRetriever.matchesFilters c fs = true ↔
      ∀ kv ∈ fs, dictGet c.metadata kv.1 = kv.2) ∧
    ((∀ kv ∈ fs, kv.2 ≠ PyVal.pnone) →
      (InMemoryRetriever.matchesFilters c fs = true ↔
        ∀ kv ∈ fs, c.metadata.lookup kv.1 = some kv.2)) := by
  refine ⟨?_, ?_, ?_⟩
  · unfold InMemoryRetriever.searchScored
    apply List.filter_congr
    intro ce _
    match fs, hfs with
    | kv :: fs', _ => simp
  · simp [InMemoryRetriever.matchesFilters]
  · intro hnn
    rw [show (InMemoryRetriever.matchesFilters c fs = true ↔
        ∀ kv ∈ fs, dictGet c.metadata kv.1 = kv.2) from
      by simp [InMemoryRetriever.matchesFilters]]
    constructor
    · intro h kv hkv
      have hg := h kv hkv
      unfold dictGet at hg
      rcases hl : c.metadata.lookup kv.1 with _ | v
      · rw [hl] at hg
        exact absurd hg.symm (hnn kv hkv)
      · rw [hl] at hg
        simp [hg.symm]
    · intro h kv hkv
      unfold dictGet
      rw [h kv hkv]
      rfl

/-- Witness for C6: a store with an `en` chunk and a `fr` chunk, filtered
by `{"lang": "en"}` — only the `en` chunk is scored, and the match
predicate agrees with key-containment (the filter value is not `None`). -/
theorem C6_filter_match_semantics_witness :
    InMemoryRetriever.searchScored
      [(⟨"c1", "d", "t".toList, [("lang", PyVal.pstr "en")], 0⟩, [1]),
       (⟨"c2", "d", "u".toList, [("lang", PyVal.pstr "fr")], 1⟩, [2])]
      [("lang", PyVal.pstr "en")] =
    List.filter
      (fun ce => InMemoryRetriever.matchesFilters ce.1
        [("lang", PyVal.pstr "en")])
      [(⟨"c1", "d", "t".toList, [("lang", PyVal.pstr "en")], 0⟩, [1]),
       (⟨"c2", "d", "u".toList, [("lang", PyVal.pstr "fr")], 1⟩, [2])] :=
  (C6_filter_match_semantics
    [(⟨"c1", "d", "t".toList, [("lang", PyVal.pstr "en")], 0⟩, [1]),
     (⟨"c2", "d", "u".toList, [("lang", PyVal.pstr "fr")], 1⟩, [2])]
    [("lang", PyVal.pstr "en")]
    ⟨"c1", "d", "t".toList, [("lang", PyVal.pstr "en")], 0⟩
    (by decide)).1

/-- Counterexample for C6 as stated: under the filter `{"k": None}`, the
chunk whose metadata lacks the key `"k"` entirely is still scored and
eligible (Python's `metadata.get("k")` is `None`, equal to the filter
value), contradicting "a chunk whose metadata lacks any filter key does
not match". -/
theorem C6_missing_key_matches_none_counterexample :
    InMemoryRetriever.searchScored [(⟨"c1", "d", "t".toList, [], 0⟩, [1])]
      [("k", PyVal.pnone)] = [(⟨"c1", "d", "t".toList, [], 0⟩, [1])] ∧
    (Chunk.metadata ⟨"c1", "d", "t".toList, [], 0⟩).lookup "k" = none := by
  exact ⟨by decide, by decide⟩

/-- `x ↦ x * |x|` is an order embedding of the reals. -/
lemma signedSq_le_iff (x y : ℝ) : x * |x| ≤ y * |y| ↔ x ≤ y := by
  constructor
  · intro h
    by_contra hlt
    push_neg at hlt
    have hstrict : y * |y| < x * |x| := by
      rcases le_or_lt 0 y with hy | hy
      · rw [abs_of_nonneg hy, abs_of_nonneg (hy.trans hlt.le)]
        exact mul_self_lt_mul_self hy hlt
      · rcases le_or_lt 0 x with hx | hx
        · rw [abs_of_neg hy, abs_of_nonneg hx]
          nlinarith
        · rw [abs_of_neg hy, abs_of_neg hx]
          nlinarith
    linarith
  · intro h
    rcases le_or_lt 0 x with hx | hx
    · rw [abs_of_nonneg hx, abs_of_nonneg (hx.trans h)]
      exact mul_self_le_mul_self hx h
    · rcases le_or_lt 0 y with hy | hy
      · rw [abs_of_neg hx, abs_of_nonneg hy]
        nlinarith
      · rw [abs_of_neg hx, abs_of_neg hy]
        nlinarith

/-- A squared norm is a sum of squares, hence nonnegative. -/
lemma normSq_nonneg (v : List ℚ) : 0 ≤ normSq v := by
  apply List.sum_nonneg
  intro y hy
  obtain ⟨z, _, rfl⟩ := List.mem_map.mp hy
  exact mul_self_nonneg z

/-- On non-NaN scores, the signed-square key compares exactly like the
real cosine value `num / √den2`. -/
lemma ssq_le_iff {a b : Sim} (ha : 0 < a.den2) (hb : 0 < b.den2) :
    Sim.ssq a ≤ Sim.ssq b ↔
      (a.num : ℝ) / Real.sqrt (a.den2 : ℝ) ≤
      (b.num : ℝ) / Real.sqrt (b.den2 : ℝ) := by
  have key : ∀ s : Sim, 0 < s.den2 →
      ((Sim.ssq s : ℚ) : ℝ) =
        ((s.num : ℝ) / Real.sqrt (s.den2 : ℝ)) *
        |(s.num : ℝ) / Real.sqrt (s.den2 : ℝ)| := by
    intro s hs
    have hsR : (0 : ℝ) < (s.den2 : ℝ) := by exact_mod_cast hs
    rw [abs_div, abs_of_nonneg (Real.sqrt_nonneg _), div_mul_div_comm,
      Real.mul_self_sqrt hsR.le]
    unfold Sim.ssq
    rw [if_neg (ne_of_gt hs)]
    push_cast
    ring
  constructor
  · intro h
    rw [← signedSq_le_iff, ← key a ha, ← key b hb]
    exact_mod_cast h
  · intro h
    have h2 := (signedSq_le_iff _ _).mpr h
    rw [← key a ha, ← key b hb] at h2
    exact_mod_cast h2

/-- `rankResults` keeps the list length. -/
lemma rankResults_length :
    ∀ (l : List (Chunk × Sim)) (i : ℕ),
      (InMemoryRetriever.rankResults i l).length = l.length := by
  intro l
  induction l with
  | nil => intro i; rfl
  | cons x l ih =>
    intro i
    rw [InMemoryRetriever.rankResults]
    simp only [List.length_cons, ih (i + 1)]

/-- `rankResults` carries the chunks through unchanged. -/
lemma rankResults_map_chunk :
    ∀ (l : List (Chunk × Sim)) (i : ℕ),
      ((InMemoryRetriever.rankResults i l).map fun r => r.chunk) =
        l.map fun cs => cs.1 := by
  intro l
  induction l with
  | nil => intro i; rfl
  | cons x l ih =>
    intro i
    rw [InMemoryRetriever.rankResults]
    simp only [List.map_cons, ih (i + 1)]

/-- `rankResults` carries the scores through unchanged. -/
lemma rankResults_map_score :
    ∀ (l : List (Chunk × Sim)) (i : ℕ),
      ((InMemoryRetriever.rankResults i l).map fun r => r.score) =
        l.map fun cs => cs.2 := by
  intro l
  induction l with
  | nil => intro i; rfl
  | cons x l ih =>
    intro i
    rw [InMemoryRetriever.rankResults]
    simp only [List.map_cons, ih (i + 1)]

/-- The ranks assigned from start index `i0` are `i0+1, i0+2, ...`. -/
lemma rankResults_map_rank :
    ∀ (l : List (Chunk × Sim)) (i0 : ℕ),
      ((InMemoryRetriever.rankResults i0 l).map fun r => r.rank) =
        List.range' (i0 + 1) l.length := by
  intro l
  induction l with
  | nil => intro i0; rfl
  | cons x l ih =>
    intro i0
    rw [InMemoryRetriever.rankResults]
    simp only [List.map_cons, List.length_cons, List.range'_succ, ih (i0 + 1)]

/-- C7: whenever `search` returns a result list (no NaN score arose), the
list has `min(top_k, #matches)` entries — so at most `top_k`, and all
matching chunks (as a permutation) when at most `top_k` match — each
result's `rank` is its index + 1, and scores are in descending order of
the real cosine value `num / √den2`. -/
theorem C7_search_ranking
    (store : Store) (q : List ℚ) (topK : ℕ) (fs : PyDict PyVal)
    (res : List SearchResult)
    (h : InMemoryRetriever.search store q topK fs = some res) :
    res.length = min topK (InMemoryRetriever.searchScored store fs).length ∧
    (∀ i (hi : i < res.length), (res.get ⟨i, hi⟩).rank = i + 1) ∧
    ((res.map fun r => r.score).Pairwise fun s t =>
      (t.num : ℝ) / Real.sqrt (t.den2 : ℝ) ≤
      (s.num : ℝ) / Real.sqrt (s.den2 : ℝ)) ∧
    ((InMemoryRetriever.searchScored store fs).length ≤ topK →
      (res.map fun r => r.chunk).Perm
        ((InMemoryRetriever.searchScored store fs).map fun ce => ce.1)) := by
  rw [InMemoryRetriever.search] at h
  set scores := (InMemoryRetriever.searchScored store fs).map
    (fun ce => (ce.1, npCosine q ce.2)) with hscores
  by_cases hnan : scores.any fun cs => cs.2.den2 = 0
  · rw [if_pos hnan] at h
    exact Option.noConfusion h
  · rw [if_neg hnan] at h
    have hres : res = InMemoryRetriever.rankResults 0
        ((List.insertionSort InMemoryRetriever.simDesc scores).take topK) := by
      injection h with h
      exact h.symm
    have hden : ∀ x ∈ scores, 0 < x.2.den2 := by
      intro x hx
      have hne : ¬ x.2.den2 = 0 := by
        intro h0
        exact hnan (List.any_eq_true.mpr ⟨x, hx, by simp [h0]⟩)
      obtain ⟨ce, _, rfl⟩ := List.mem_map.mp hx
      have : 0 ≤ normSq q * normSq ce.2 :=
        mul_nonneg (normSq_nonneg q) (normSq_nonneg ce.2)
      rcases this.lt_or_eq with hpos | heq
      · exact hpos
      · exact absurd heq.symm hne
    have hperm := List.perm_insertionSort InMemoryRetriever.simDesc scores
    have hsorted := List.sorted_insertionSort InMemoryRetriever.simDesc scores
    have hranks : (res.map fun r => r.rank) = List.range' 1 res.length := by
      rw [hres, rankResults_map_rank, rankResults_length]
    refine ⟨?_, ?_, ?_, ?_⟩
    · rw [hres, rankResults_length, List.length_take, hperm.length_eq,
        List.length_map]
    · intro i hi
      have h1 := List.get_of_eq hranks ⟨i, by simpa using hi⟩
      simp only [List.get_eq_getElem, List.getElem_map, List.getElem_range'] at h1
      simp only [List.get_eq_getElem]
      omega
    · rw [hres, rankResults_map_score, List.pairwise_map]
      have htake : ((List.insertionSort InMemoryRetriever.simDesc scores).take
          topK).Pairwise InMemoryRetriever.simDesc :=
        hsorted.sublist (List.take_sublist _ _)
      refine htake.imp_of_mem ?_
      intro a b ha hb hab
      have hamem : a ∈ scores :=
        hperm.mem_iff.mp (List.take_subset _ _ ha)
      have hbmem : b ∈ scores :=
        hperm.mem_iff.mp (List.take_subset _ _ hb)
      exact (ssq_le_iff (hden b hbmem) (hden a hamem)).mp hab
    · intro hlen
      have hlen2 : (List.insertionSort InMemoryRetriever.simDesc scores).length ≤
          topK := by
        rw [hperm.length_eq, List.length_map]
        exact hlen
      rw [hres, List.take_of_length_le hlen2, rankResults_map_chunk]
      have h2 := hperm.map fun cs : Chunk × Sim => cs.1
      refine h2.trans ?_
      rw [hscores, List.map_map]
      exact List.Perm.refl _

/-- Witness for C7: a two-chunk store queried with `[1, 0]` — `search`
returns both chunks, ranked 1 and 2, in descending score order. -/
theorem C7_search_ranking_witness :
    InMemoryRetriever.search
      [(⟨"c1", "d", "t".toList, [], 0⟩, [1, 0]),
       (⟨"c2", "d", "u".toList, [], 1⟩, [0, 1])] [1, 0] 5 [] =
      some [⟨⟨"c1", "d", "t".toList, [], 0⟩, ⟨1, 1⟩, 1⟩,
            ⟨⟨"c2", "d", "u".toList, [], 1⟩, ⟨0, 1⟩, 2⟩] ∧
    ([(⟨⟨"c1", "d", "t".toList, [], 0⟩, ⟨1, 1⟩, 1⟩ : SearchResult),
      ⟨⟨"c2", "d", "u".toList, [], 1⟩, ⟨0, 1⟩, 2⟩].length =
      min 5 (InMemoryRetriever.searchScored
        [(⟨"c1", "d", "t".toList, [], 0⟩, [1, 0]),
         (⟨"c2", "d", "u".toList, [], 1⟩, [0, 1])] []).length ∧
    (∀ i (hi : i < ([(⟨⟨"c1", "d", "t".toList, [], 0⟩, ⟨1, 1⟩, 1⟩ : SearchResult),
        ⟨⟨"c2", "d", "u".toList, [], 1⟩, ⟨0, 1⟩, 2⟩]).length),
      (([(⟨⟨"c1", "d", "t".toList, [], 0⟩, ⟨1, 1⟩, 1⟩ : SearchResult),
        ⟨⟨"c2", "d", "u".toList, [], 1⟩, ⟨0, 1⟩, 2⟩]).get ⟨i, hi⟩).rank = i + 1) ∧
    ((([(⟨⟨"c1", "d", "t".toList, [], 0⟩, ⟨1, 1⟩, 1⟩ : SearchResult),
        ⟨⟨"c2", "d", "u".toList, [], 1⟩, ⟨0, 1⟩, 2⟩]).map fun r => r.score).Pairwise
      fun s t => (t.num : ℝ) / Real.sqrt (t.den2 : ℝ) ≤
        (s.num : ℝ) / Real.sqrt (s.den2 : ℝ)) ∧
    ((InMemoryRetriever.searchScored
        [(⟨"c1", "d", "t".toList, [], 0⟩, [1, 0]),
         (⟨"c2", "d", "u".toList, [], 1⟩, [0, 1])] []).length ≤ 5 →
      (([(⟨⟨"c1", "d", "t".toList, [], 0⟩, ⟨1, 1⟩, 1⟩ : SearchResult),
        ⟨⟨"c2", "d", "u".toList, [], 1⟩, ⟨0, 1⟩, 2⟩]).map fun r => r.chunk).Perm
        ((InMemoryRetriever.searchScored
          [(⟨"c1", "d", "t".toList, [], 0⟩, [1, 0]),
           (⟨"c2", "d", "u".toList, [], 1⟩, [0, 1])] []).map fun ce => ce.1))) := by
  have hsearch : InMemoryRetriever.search
      [(⟨"c1", "d", "t".toList, [], 0⟩, [1, 0]),
       (⟨"c2", "d", "u".toList, [], 1⟩, [0, 1])] [1, 0] 5 [] =
      some [⟨⟨"c1", "d", "t".toList, [], 0⟩, ⟨1, 1⟩, 1⟩,
            ⟨⟨"c2", "d", "u".toList, [], 1⟩, ⟨0, 1⟩, 2⟩] := by
    norm_num [InMemoryRetriever.search, InMemoryRetriever.searchScored,
      npCosine, dotProd, normSq, List.insertionSort, List.orderedInsert,
      InMemoryRetriever.simDesc, Sim.ssq, InMemoryRetriever.rankResults]
  exact ⟨hsearch, C7_search_ranking _ [1, 0] 5 [] _ hsearch⟩

/-- The `_mrr` loop agrees with "reciprocal of the 1-indexed position of
the first hit", for any starting rank. -/
lemma mrrGo_eq_findIdx :
    ∀ (l : List String) (rel : Finset String) (r : ℕ),
      RetrievalEvaluator.mrrGo rel l r =
        match l.findIdx? (fun d => decide (d ∈ rel)) r with
        | some i => 1 / (i : ℚ)
        | none => 0 := by
  intro l rel
  induction l with
  | nil => intro r; rfl
  | cons d rest ih =>
    intro r
    rw [RetrievalEvaluator.mrrGo, List.findIdx?_cons]
    by_cases hd : d ∈ rel
    · rw [if_pos hd, if_pos (by simpa using hd)]
    · rw [if_neg hd, if_neg (by simpa using hd)]
      exact ih (r + 1)

/-- C8: with a non-empty relevant set, `recall@k` is
`|top-k ∩ relevant| / |relevant|` and `mrr` is the reciprocal of the
1-indexed rank of the first relevant retrieved id (0 when none); on the
spec's scenario `retrieved = [c3, c1, c5]`, `relevant = {c1, c2}` the
values are `recall@5 = 0.5`, `precision@5 = 0.2`, `mrr = 0.5`. -/
theorem C8_retrieval_metric_formulas
    (l : List String) (rel : Finset String) (k : ℕ) (hrel : rel ≠ ∅) :
    (RetrievalEvaluator.recallAtK l rel k =
      (((l.take k).toFinset ∩ rel).card : ℚ) / rel.card ∧
     RetrievalEvaluator.mrr l rel = mrrSpec l rel) ∧
    (RetrievalEvaluator.recallAtK ["c3", "c1", "c5"] {"c1", "c2"} 5 = 1 / 2 ∧
     RetrievalEvaluator.precisionAtK ["c3", "c1", "c5"] {"c1", "c2"} 5 = 1 / 5 ∧
     RetrievalEvaluator.mrr ["c3", "c1", "c5"] {"c1", "c2"} = 1 / 2) := by
  constructor
  · constructor
    · rw [RetrievalEvaluator.recallAtK, if_neg hrel]
    · rw [RetrievalEvaluator.mrr, mrrGo_eq_findIdx, mrrSpec]
      rw [show (1 : ℕ) = 0 + 1 from rfl, List.findIdx?_start_succ]
      rcases h : List.findIdx? (fun d => decide (d ∈ rel)) l with _ | i
      · simp [h]
      · simp only [h, Option.map_some']
        show (1 : ℚ) / ((i + (0 + 1) : ℕ) : ℚ) = 1 / ((i : ℚ) + 1)
        push_cast
        norm_num
  · have h1 : ((["c3", "c1", "c5"].take 5).toFinset ∩
        ({"c1", "c2"} : Finset String)).card = 1 := by decide
    have h2 : ({"c1", "c2"} : Finset String).card = 2 := by decide
    have h3 : ({"c1", "c2"} : Finset String) ≠ ∅ := by decide
    refine ⟨?_, ?_, ?_⟩
    · rw [RetrievalEvaluator.recallAtK, if_neg h3, h1, h2]
      norm_num
    · rw [RetrievalEvaluator.precisionAtK, if_neg (by omega), h1]
      norm_num
    · simp only [RetrievalEvaluator.mrr, RetrievalEvaluator.mrrGo]
      norm_num [show ("c3" : String) ∉ ({"c1", "c2"} : Finset String) from
        by decide,
        show ("c1" : String) ∈ ({"c1", "c2"} : Finset String) from by decide]

/-- Witness for C8 at the scenario inputs. -/
theorem C8_retrieval_metric_formulas_witness :
    ({"c1", "c2"} : Finset String) ≠ ∅ ∧
    RetrievalEvaluator.recallAtK ["c3", "c1", "c5"] {"c1", "c2"} 5 =
      (((["c3", "c1", "c5"].take 5).toFinset ∩
        ({"c1", "c2"} : Finset String)).card : ℚ) /
        ({"c1", "c2"} : Finset String).card ∧
    RetrievalEvaluator.mrr ["c3", "c1", "c5"] {"c1", "c2"} =
      mrrSpec ["c3", "c1", "c5"] {"c1", "c2"} :=
  ⟨by decide,
    (C8_retrieval_metric_formulas ["c3", "c1", "c5"] {"c1", "c2"} 5
      (by decide)).1.1,
    (C8_retrieval_metric_formulas ["c3", "c1", "c5"] {"c1", "c2"} 5
      (by decide)).1.2⟩

/-- A key absent from a dict's key list looks up to nothing. -/
lemma lookup_eq_none_of_not_mem {β : Type} (k : String) (d : PyDict β)
    (h : k ∉ d.map Prod.fst) : d.lookup k = none := by
  rw [List.lookup_eq_none_iff]
  intro p hp
  simp only [bne_iff_ne, ne_eq]
  intro he
  exact h (List.mem_map.mpr ⟨p, hp, he.symm⟩)

/-- Looking up after a single keyed store. -/
lemma lookup_setKey {β : Type} (a : String) (v : β) (k : String) :
    ∀ d : PyDict β,
      (setKey d (a, v)).lookup k = if k = a then some v else d.lookup k := by
  intro d
  induction d with
  | nil =>
    rw [setKey]
    rcases eq_or_ne k a with h | h
    · subst h; simp
    · simp [List.lookup_cons, beq_eq_false_iff_ne.mpr h, h]
  | cons kv' d ih =>
    obtain ⟨a', v'⟩ := kv'
    rw [setKey]
    rcases eq_or_ne a' a with h1 | h1
    · rw [if_pos (by simpa using h1)]
      rcases eq_or_ne k a with h | h
      · subst h; simp
      · subst h1
        simp [List.lookup_cons, beq_eq_false_iff_ne.mpr h, h]
    · rw [if_neg (by simpa using h1)]
      rcases eq_or_ne k a' with h | h
      · subst h
        simp [List.lookup_cons, fun he => h1 he.symm ∘ Eq.symm, h1]
      · simp [List.lookup_cons, beq_eq_false_iff_ne.mpr h, ih]

/-- `d.update(e)` looks up like `e` first, then `d`, when `e` has no
duplicate keys (a Python dict never does). -/
lemma lookup_dictUpdate {β : Type} (k : String) :
    ∀ (e d : PyDict β), (e.map Prod.fst).Nodup →
      (dictUpdate d e).lookup k = (e.lookup k).or (d.lookup k) := by
  intro e
  induction e with
  | nil => intro d _; rfl
  | cons kv e ih =>
    obtain ⟨a, v⟩ := kv
    intro d hnd
    simp only [List.map_cons, List.nodup_cons] at hnd
    have hstep : dictUpdate d ((a, v) :: e) = dictUpdate (setKey d (a, v)) e := rfl
    rw [hstep, ih (setKey d (a, v)) hnd.2, lookup_setKey]
    rcases eq_or_ne k a with h | h
    · rw [if_pos h]
      have he : e.lookup k = none := by
        apply lookup_eq_none_of_not_mem
        rw [h]
        exact hnd.1
      subst h
      simp [he]
    · rw [if_neg h]
      simp [List.lookup_cons, beq_eq_false_iff_ne.mpr h]

/-- Folding `dict.update` over a list of key-unique dicts: a key resolves
to the value in the last dict containing it, else to the accumulator. -/
lemma lookup_foldl_dictUpdate {β : Type} (k : String) :
    ∀ (ms : List (PyDict β)) (acc : PyDict β),
      (∀ m ∈ ms, (m.map Prod.fst).Nodup) →
      (ms.foldl dictUpdate acc).lookup k =
        (ms.reverse.findSome? fun d => d.lookup k).or (acc.lookup k) := by
  intro ms
  induction ms with
  | nil => intro acc _; rfl
  | cons m ms ih =>
    intro acc hnd
    rw [List.foldl_cons, ih (dictUpdate acc m) (fun x hx => hnd x (by simp [hx])),
      List.reverse_cons, List.findSome?_append,
      lookup_dictUpdate k m acc (hnd m (by simp)), ← Option.or_assoc]
    congr 1
    cases h : List.lookup k m <;> simp [List.findSome?, h]

/-- C9: a `CompositeEvaluator` with evaluators `e1..en` and equal-length
weights `w1..wn` of nonzero sum runs every evaluator once, merges the
retrieval and generation metric mappings so that a key resolves to the
value contributed by the last evaluator whose mapping contains it, and
returns `overall_score = (Σ wi * overall(ei)) / (Σ wi)`; an unspecified
weight list defaults to weight 1.0 per evaluator.  (Metric mappings are
Python dicts, so their keys are assumed duplicate-free.) -/
theorem C9_composite_weighted_merge
    (evaluators : List EvaluatorFn) (ws : List ℚ) (query : String)
    (retrieved : List SearchResult) (generated : String)
    (golden : Option GoldenExample)
    (_hlen : ws.length = evaluators.length) (hsum : ws.sum ≠ 0)
    (hnd : ∀ p ∈ evaluators.zip ws,
      ((p.1 query retrieved generated golden).retrieval_metrics.map
        Prod.fst).Nodup ∧
      ((p.1 query retrieved generated golden).generation_metrics.map
        Prod.fst).Nodup) :
    ∃ result : EvaluationResult,
      CompositeEvaluator.evaluate evaluators (some ws) query retrieved
        generated golden = Except.ok result ∧
      result.overall_score =
        ((evaluators.zip ws).map fun p =>
          (p.1 query retrieved generated golden).overall_score * p.2).sum /
          ws.sum ∧
      (∀ k, result.retrieval_metrics.lookup k =
        lastLookup k ((evaluators.zip ws).map fun p =>
          (p.1 query retrieved generated golden).retrieval_metrics)) ∧
      (∀ k, result.generation_metrics.lookup k =
        lastLookup k ((evaluators.zip ws).map fun p =>
          (p.1 query retrieved generated golden).generation_metrics)) ∧
      CompositeEvaluator.defaultWeights none evaluators.length =
        List.replicate evaluators.length 1 := by
  have hne : ws ≠ [] := by
    intro h0
    rw [h0] at hsum
    exact hsum rfl
  have hW : CompositeEvaluator.defaultWeights (some ws) evaluators.length =
      ws := by
    rw [CompositeEvaluator.defaultWeights, if_neg hne]
  set results := (evaluators.zip ws).map
    (fun p => (p.1 query retrieved generated golden, p.2)) with hresults
  have heval : CompositeEvaluator.evaluate evaluators (some ws) query retrieved
      generated golden =
      Except.ok
        { query := query
          retrieval_metrics := results.foldl
            (fun acc rw => dictUpdate acc rw.1.retrieval_metrics) []
          generation_metrics := results.foldl
            (fun acc rw => dictUpdate acc rw.1.generation_metrics) []
          overall_score :=
            (results.map fun rw => rw.1.overall_score * rw.2).sum / ws.sum
          details := [] } := by
    rw [CompositeEvaluator.evaluate]
    simp only [hW, ← hresults]
    rw [if_neg hsum]
  refine ⟨_, heval, ?_, ?_, ?_, rfl⟩
  · show (results.map fun rw => rw.1.overall_score * rw.2).sum / ws.sum = _
    rw [hresults, List.map_map]
    rfl
  · intro k
    show (results.foldl
      (fun acc rw => dictUpdate acc rw.1.retrieval_metrics) []).lookup k = _
    rw [← List.foldl_map (fun rw : EvaluationResult × ℚ => rw.1.retrieval_metrics)
      dictUpdate results []]
    rw [lookup_foldl_dictUpdate]
    · rw [lastLookup, hresults, List.map_map]
      simp [Option.or_none]
      rfl
    · intro m hm
      rw [hresults, List.map_map] at hm
      obtain ⟨p, hp, rfl⟩ := List.mem_map.mp hm
      exact (hnd p hp).1
  · intro k
    show (results.foldl
      (fun acc rw => dictUpdate acc rw.1.generation_metrics) []).lookup k = _
    rw [← List.foldl_map (fun rw : EvaluationResult × ℚ => rw.1.generation_metrics)
      dictUpdate results []]
    rw [lookup_foldl_dictUpdate]
    · rw [lastLookup, hresults, List.map_map]
      simp [Option.or_none]
      rfl
    · intro m hm
      rw [hresults, List.map_map] at hm
      obtain ⟨p, hp, rfl⟩ := List.mem_map.mp hm
      exact (hnd p hp).2

/-- Witness for C9: two constant evaluators with scores 1 and 0, metric
key `"m"` contributed by both (values 1 then 2), weights `[1, 3]`. -/
theorem C9_composite_weighted_merge_witness :
    ([(1 : ℚ), 3].length =
      ([fun _ _ _ _ => ⟨"q", [("m", (1 : ℚ))], [], 1, []⟩,
        fun _ _ _ _ => ⟨"q", [("m", (2 : ℚ))], [], 0, []⟩] :
        List EvaluatorFn).length) ∧
    ([(1 : ℚ), 3].sum ≠ 0) ∧
    ∃ result : EvaluationResult,
      CompositeEvaluator.evaluate
        [fun _ _ _ _ => ⟨"q", [("m", (1 : ℚ))], [], 1, []⟩,
         fun _ _ _ _ => ⟨"q", [("m", (2 : ℚ))], [], 0, []⟩]
        (some [1, 3]) "q" [] "ans" none = Except.ok result ∧
      result.overall_score =
        ((([fun _ _ _ _ => ⟨"q", [("m", (1 : ℚ))], [], 1, []⟩,
            fun _ _ _ _ => ⟨"q", [("m", (2 : ℚ))], [], 0, []⟩] :
            List EvaluatorFn).zip [(1 : ℚ), 3]).map fun p =>
          (p.1 "q" [] "ans" none).overall_score * p.2).sum / ([(1 : ℚ), 3]).sum ∧
      (∀ k, result.retrieval_metrics.lookup k =
        lastLookup k ((([fun _ _ _ _ => ⟨"q", [("m", (1 : ℚ))], [], 1, []⟩,
            fun _ _ _ _ => ⟨"q", [("m", (2 : ℚ))], [], 0, []⟩] :
            List EvaluatorFn).zip [(1 : ℚ), 3]).map fun p =>
          (p.1 "q" [] "ans" none).retrieval_metrics)) ∧
      (∀ k, result.generation_metrics.lookup k =
        lastLookup k ((([fun _ _ _ _ => ⟨"q", [("m", (1 : ℚ))], [], 1, []⟩,
            fun _ _ _ _ => ⟨"q", [("m", (2 : ℚ))], [], 0, []⟩] :
            List EvaluatorFn).zip [(1 : ℚ), 3]).map fun p =>
          (p.1 "q" [] "ans" none).generation_metrics)) ∧
      CompositeEvaluator.defaultWeights none
        ([fun _ _ _ _ => ⟨"q", [("m", (1 : ℚ))], [], 1, []⟩,
          fun _ _ _ _ => ⟨"q", [("m", (2 : ℚ))], [], 0, []⟩] :
          List EvaluatorFn).length =
        List.replicate ([fun _ _ _ _ => ⟨"q", [("m", (1 : ℚ))], [], 1, []⟩,
          fun _ _ _ _ => ⟨"q", [("m", (2 : ℚ))], [], 0, []⟩] :
          List EvaluatorFn).length 1 :=
  ⟨rfl, by norm_num,
    C9_composite_weighted_merge
      [fun _ _ _ _ => ⟨"q", [("m", (1 : ℚ))], [], 1, []⟩,
       fun _ _ _ _ => ⟨"q", [("m", (2 : ℚ))], [], 0, []⟩]
      [1, 3] "q" [] "ans" none rfl (by norm_num)
      (by intro p hp
          fin_cases hp <;> exact ⟨by decide, by decide⟩)⟩

/-- C10: a `CompositeEvaluator` built with an empty evaluator list and no
explicit weights has `weights = [1.0] * 0 = []`; `evaluate` then divides
by `sum(self.weights) = 0` and raises `ZeroDivisionError` instead of
returning an `EvaluationResult`. -/
theorem C10_composite_empty_evaluators_zero_division
    (query : String) (retrieved : List SearchResult) (generated : String)
    (golden : Option GoldenExample) :
    CompositeEvaluator.evaluate [] none query retrieved generated golden =
      Except.error PyErr.zeroDivisionError := by
  rw [CompositeEvaluator.evaluate]
  have h : (CompositeEvaluator.defaultWeights none
      ([] : List EvaluatorFn).length).sum = 0 := rfl
  rw [if_pos h]
